import Mathlib

/-!
Shallow embedding of `src/main.cpp` (class `BloomFilter`) and verification of
the specification's claims about it.

Modelling conventions:
* `size_t` is 64-bit unsigned arithmetic: values are `Nat`s kept below `2^64`,
  with an explicit `% 2^64` where C++ wraparound matters (the multiplication
  in `hash`).
* a `std::string` is its list of bytes; `char` is signed (x86-64), so a byte
  `≥ 128` sign-extends when folded into the `size_t` accumulator by `hash ^= c`.
* `std::vector<bool> bitArray` is a `List Bool`; `bitArray[pos] = true` is
  `List.set pos true` (the C++ loop bodies only ever index in bounds when
  `m ≥ 1`, which the in-bounds claim makes explicit).
* IEEE-754 `double` arithmetic in `optimalParameters` is modelled as exact
  real arithmetic; for every concrete input evaluated below the value whose
  ceiling is taken is far from an integer boundary, so the idealisation
  agrees with the double computation.
* C++ undefined behaviour in `optimalParameters` (integer division by zero
  when `n = 0`; conversion of an infinite, NaN or negative `double` to
  `size_t`) is modelled by `Option`: `none` marks the undefined executions.
-/

/-- Modulus of 64-bit unsigned `size_t` arithmetic. -/
def SIZE_T_MOD : ℕ := 2 ^ 64

/-- Conversion applied by `hash ^= c` in `src/main.cpp:29`: the byte `c` of the
string, read as a signed `char`, is promoted and converted to `size_t`, so
bytes `≥ 128` become `2^64 - 256 + c`. -/
def charToSizeT (c : ℕ) : ℕ :=
  if c % 256 < 128 then c % 256 else SIZE_T_MOD - 256 + c % 256

/-- One iteration of the mixing loop of `BloomFilter::hash`
(`src/main.cpp:28-32`): `hash ^= c; hash *= 0x5bd1e995; hash ^= hash >> 15;`.
The accumulator stays below `2^64`; only the multiplication can overflow and
carries the explicit modulus. -/
def hashStep (h : ℕ) (c : ℕ) : ℕ :=
  let h1 := Nat.xor h (charToSizeT c)
  let h2 := h1 * 0x5bd1e995 % SIZE_T_MOD
  Nat.xor h2 (h2 >>> 15)

/-- Strings handed to the filter: lists of bytes. -/
abbrev Str := List ℕ

/-- The `BloomFilter` class state (`src/main.cpp:16-17`): the bit vector and
the number of hash functions. -/
@[ext]
structure BloomFilter where
  bitArray : List Bool
  numHashFunctions : ℕ

/-- Member function `BloomFilter::hash` (`src/main.cpp:26-34`): fold the
mixing step over the string starting from the seed, then reduce modulo
`bitArray.size()`. -/
def BloomFilter.hash (f : BloomFilter) (item : Str) (seed : ℕ) : ℕ :=
  (item.foldl hashStep (seed % SIZE_T_MOD)) % f.bitArray.length

/-- The bit positions touched by `insert` and probed by `mightContain`:
`hash(item, i)` for `i = 0, …, numHashFunctions - 1`. -/
def BloomFilter.positions (f : BloomFilter) (item : Str) : List ℕ :=
  (List.range f.numHashFunctions).map fun i => f.hash item i

/-- Setting a list of bit positions to `true`, in order: the loop body
`bitArray[hash(item, i)] = true` of `BloomFilter::insert`. -/
def setBits : List Bool → List ℕ → List Bool
  | l, [] => l
  | l, p :: ps => setBits (l.set p true) ps

/-- Member function `BloomFilter::insert` (`src/main.cpp:49-53`). -/
def BloomFilter.insert (f : BloomFilter) (item : Str) : BloomFilter :=
  { f with bitArray := setBits f.bitArray (f.positions item) }

/-- Member function `BloomFilter::mightContain` (`src/main.cpp:60-67`):
true iff the bit at every probed position is set (the C++ short-circuit
`return false` is extensionally `List.all`). -/
def BloomFilter.mightContain (f : BloomFilter) (item : Str) : Bool :=
  (List.range f.numHashFunctions).all fun i => f.bitArray.getD (f.hash item i) false

/-- Member function `BloomFilter::getMemoryUsage` (`src/main.cpp:73-76`):
`bitArray.size() / 8 + (bitArray.size() % 8 ? 1 : 0)`. -/
def BloomFilter.getMemoryUsage (f : BloomFilter) : ℕ :=
  f.bitArray.length / 8 + (if f.bitArray.length % 8 ≠ 0 then 1 else 0)

/-- Member function `BloomFilter::getBitArraySize` (`src/main.cpp:82-84`). -/
def BloomFilter.getBitArraySize (f : BloomFilter) : ℕ :=
  f.bitArray.length

/-- The constructor `BloomFilter(size, numHashes)` (`src/main.cpp:42-43`):
`bitArray(size, false), numHashFunctions(numHashes)`, with no validation of
either argument. -/
def BloomFilter.new (size : ℕ) (numHashes : ℕ) : BloomFilter :=
  { bitArray := List.replicate size false, numHashFunctions := numHashes }

/-- A finite sequence of `insert` calls. -/
def BloomFilter.insertAll (f : BloomFilter) (items : List Str) : BloomFilter :=
  items.foldl BloomFilter.insert f

/-- The `double` value `-(expectedElements * log(falsePositiveRate)) /
(log(2) * log(2))` of `src/main.cpp:94` after `ceil`, before the `size_t`
conversion (exact-real model of the double computation). -/
noncomputable def optimalM (n : ℕ) (p : ℝ) : ℤ :=
  ⌈-((n : ℝ) * Real.log p) / (Real.log 2 * Real.log 2)⌉

/-- The value of `src/main.cpp:96` before the `size_t` conversion: note the
C++ expression `m / expectedElements` is unsigned integer division, performed
before the multiplication by `log(2)`. -/
noncomputable def optimalK (n : ℕ) (p : ℝ) : ℤ :=
  ⌈(((optimalM n p).toNat / n : ℕ) : ℝ) * Real.log 2⌉

/-- Static member `BloomFilter::optimalParameters` (`src/main.cpp:92-98`).
The function performs no input validation; `none` marks the executions that
are undefined in C++: `n = 0` makes `m / expectedElements` a division by
zero, `p ≤ 0` makes `log(p)` `-inf` or NaN so that `ceil`'s result has no
value representable in `size_t`, and a negative `ceil` result (`p` well above
`1`) likewise cannot be converted to `size_t`. On every other input the
returned pair is exactly what the C++ code computes. -/
noncomputable def BloomFilter.optimalParameters (n : ℕ) (p : ℝ) : Option (ℕ × ℕ) :=
  if n = 0 ∨ p ≤ 0 ∨ optimalM n p < 0 then none
  else some ((optimalM n p).toNat, (optimalK n p).toNat)

/-- Modelled from the spec: the sizing formulas as the specification states
them, `m = ceil(-(n * ln p) / (ln 2)^2)` and `k = ceil((m / n) * ln 2)`, with
`m / n` the exact ratio of the already-rounded integer `m` over `n`. -/
noncomputable def optimalParametersSpec (n : ℕ) (p : ℝ) : ℤ × ℤ :=
  (⌈-((n : ℝ) * Real.log p) / (Real.log 2 * Real.log 2)⌉,
   ⌈((⌈-((n : ℝ) * Real.log p) / (Real.log 2 * Real.log 2)⌉ : ℝ) / (n : ℝ)) * Real.log 2⌉)

/-! Basic facts about `setBits`. -/

theorem setBits_length (ps : List ℕ) (l : List Bool) :
    (setBits l ps).length = l.length := by
  induction ps generalizing l with
  | nil => rfl
  | cons p ps ih =>
    rw [show setBits l (p :: ps) = setBits (l.set p true) ps from rfl, ih,
      List.length_set]

theorem getElem?_setBits (ps : List ℕ) (l : List Bool) (i : ℕ) :
    (setBits l ps)[i]? = if i ∈ ps ∧ i < l.length then some true else l[i]? := by
  induction ps generalizing l with
  | nil => simp [setBits]
  | cons p ps ih =>
    rw [show setBits l (p :: ps) = setBits (l.set p true) ps from rfl, ih,
      List.length_set, List.getElem?_set]
    by_cases hpi : p = i
    · subst hpi
      by_cases hlen : p < l.length
      · by_cases hmem : p ∈ ps <;> simp [List.mem_cons, hlen, hmem]
      · have hnone : l[p]? = none := List.getElem?_eq_none (by omega)
        simp [List.mem_cons, hlen, hnone]
    · by_cases hmem : i ∈ ps
      · by_cases hlen : i < l.length <;>
          simp [List.mem_cons, hpi, hmem, hlen, Ne.symm hpi]
      · simp [List.mem_cons, hpi, hmem, Ne.symm hpi]

theorem getElem?_setBits_of_mem {ps : List ℕ} {l : List Bool} {i : ℕ}
    (hmem : i ∈ ps) (hlen : i < l.length) : (setBits l ps)[i]? = some true := by
  rw [getElem?_setBits]
  simp [hmem, hlen]

theorem getElem?_setBits_of_true {ps : List ℕ} {l : List Bool} {i : ℕ}
    (h : l[i]? = some true) : (setBits l ps)[i]? = some true := by
  rw [getElem?_setBits]
  split
  · rfl
  · exact h

theorem setBits_idem (ps : List ℕ) (l : List Bool) :
    setBits (setBits l ps) ps = setBits l ps := by
  apply List.ext_getElem?
  intro i
  simp only [getElem?_setBits, setBits_length]
  by_cases h : i ∈ ps ∧ i < l.length <;> simp [h]

/-! Basic facts about `insert`, `insertAll` and `mightContain`. -/

theorem BloomFilter.insert_numHashFunctions (f : BloomFilter) (s : Str) :
    (f.insert s).numHashFunctions = f.numHashFunctions := rfl

theorem BloomFilter.insert_length (f : BloomFilter) (s : Str) :
    (f.insert s).bitArray.length = f.bitArray.length :=
  setBits_length _ _

theorem BloomFilter.insert_positions (f : BloomFilter) (s t : Str) :
    (f.insert s).positions t = f.positions t := by
  simp [BloomFilter.positions, BloomFilter.hash, BloomFilter.insert_length,
    BloomFilter.insert_numHashFunctions]

theorem BloomFilter.insert_preserves_true {f : BloomFilter} {s : Str} {i : ℕ}
    (h : f.bitArray[i]? = some true) : (f.insert s).bitArray[i]? = some true :=
  getElem?_setBits_of_true h

theorem BloomFilter.insertAll_length (xs : List Str) (f : BloomFilter) :
    (f.insertAll xs).bitArray.length = f.bitArray.length := by
  induction xs generalizing f with
  | nil => rfl
  | cons x xs ih =>
    rw [show f.insertAll (x :: xs) = (f.insert x).insertAll xs from rfl, ih,
      BloomFilter.insert_length]

theorem BloomFilter.insertAll_numHashFunctions (xs : List Str) (f : BloomFilter) :
    (f.insertAll xs).numHashFunctions = f.numHashFunctions := by
  induction xs generalizing f with
  | nil => rfl
  | cons x xs ih =>
    rw [show f.insertAll (x :: xs) = (f.insert x).insertAll xs from rfl, ih,
      BloomFilter.insert_numHashFunctions]

theorem BloomFilter.insertAll_preserves_true {f : BloomFilter} {i : ℕ}
    (xs : List Str) (h : f.bitArray[i]? = some true) :
    (f.insertAll xs).bitArray[i]? = some true := by
  induction xs generalizing f with
  | nil => exact h
  | cons x xs ih =>
    exact ih (f := f.insert x) (BloomFilter.insert_preserves_true h)

theorem BloomFilter.mightContain_iff (f : BloomFilter) (item : Str) :
    f.mightContain item = true ↔
      ∀ p ∈ f.positions item, f.bitArray.getD p false = true := by
  simp only [BloomFilter.mightContain, BloomFilter.positions, List.all_eq_true,
    List.mem_map, List.mem_range]
  constructor
  · rintro h p ⟨i, hi, rfl⟩
    exact h i hi
  · intro h i hi
    exact h _ ⟨i, hi, rfl⟩

/-! Machinery for the no-false-negatives property. -/

theorem BloomFilter.positions_lt {f : BloomFilter} (item : Str)
    (hm : 1 ≤ f.bitArray.length) :
    ∀ p ∈ f.positions item, p < f.bitArray.length := by
  intro p hp
  obtain ⟨i, _, rfl⟩ := List.mem_map.mp hp
  exact Nat.mod_lt _ (by omega)

theorem BloomFilter.insert_contains_self {f : BloomFilter} {s : Str}
    (hm : 1 ≤ f.bitArray.length) :
    ∀ p ∈ (f.insert s).positions s, (f.insert s).bitArray[p]? = some true := by
  intro p hp
  rw [BloomFilter.insert_positions] at hp
  exact getElem?_setBits_of_mem hp (BloomFilter.positions_lt s hm p hp)

theorem BloomFilter.contains_preserved_insert {f : BloomFilter} {s t : Str}
    (h : ∀ p ∈ f.positions s, f.bitArray[p]? = some true) :
    ∀ p ∈ (f.insert t).positions s, (f.insert t).bitArray[p]? = some true := by
  intro p hp
  rw [BloomFilter.insert_positions] at hp
  exact BloomFilter.insert_preserves_true (h p hp)

theorem BloomFilter.positions_insertAll (xs : List Str) (f : BloomFilter) (t : Str) :
    (f.insertAll xs).positions t = f.positions t := by
  simp [BloomFilter.positions, BloomFilter.hash, BloomFilter.insertAll_length,
    BloomFilter.insertAll_numHashFunctions]

theorem BloomFilter.contains_preserved_insertAll {f : BloomFilter} {s : Str}
    (xs : List Str) (h : ∀ p ∈ f.positions s, f.bitArray[p]? = some true) :
    ∀ p ∈ (f.insertAll xs).positions s, (f.insertAll xs).bitArray[p]? = some true := by
  induction xs generalizing f with
  | nil => exact h
  | cons x xs ih =>
    exact ih (f := f.insert x) (BloomFilter.contains_preserved_insert h)

theorem BloomFilter.mem_insertAll_contains {s : Str} (xs : List Str)
    (f : BloomFilter) (hm : 1 ≤ f.bitArray.length) (hs : s ∈ xs) :
    ∀ p ∈ (f.insertAll xs).positions s, (f.insertAll xs).bitArray[p]? = some true := by
  induction xs generalizing f with
  | nil => cases hs
  | cons x xs ih =>
    rw [show f.insertAll (x :: xs) = (f.insert x).insertAll xs from rfl]
    rcases List.mem_cons.mp hs with rfl | hmem
    · exact BloomFilter.contains_preserved_insertAll xs
        (BloomFilter.insert_contains_self hm)
    · exact ih (f.insert x) (by rw [BloomFilter.insert_length]; exact hm) hmem

/-- Claim C1: no false negatives.  For every filter constructed with `m ≥ 1`
and `k ≥ 1` and every finite sequence of strings passed to `insert`,
`mightContain` returns `true` for every string of the sequence; since the
sequence is arbitrary this covers both the check immediately after the
insertion and the check after arbitrarily many further insertions. -/
theorem BloomFilter.no_false_negatives (m k : ℕ) (hm : 1 ≤ m) (hk : 1 ≤ k)
    (xs : List Str) (s : Str) (hs : s ∈ xs) :
    ((BloomFilter.new m k).insertAll xs).mightContain s = true := by
  rw [BloomFilter.mightContain_iff]
  intro p hp
  have hlen : 1 ≤ (BloomFilter.new m k).bitArray.length := by
    simpa [BloomFilter.new] using hm
  have h := BloomFilter.mem_insertAll_contains xs (BloomFilter.new m k) hlen hs p hp
  simp [List.getD, h]

/-- Witness for C1 at `m = 8`, `k = 2`, the one-element sequence `["h"]`. -/
theorem BloomFilter.no_false_negatives_witness :
    ((BloomFilter.new 8 2).insertAll [[104]]).mightContain [104] = true :=
  BloomFilter.no_false_negatives 8 2 (by norm_num) (by norm_num) [[104]] [104]
    (by simp)

/-- Claim C4: the C++ constructor (`src/main.cpp:42-43`) performs no
validation at all: `m = 0` and `k = 0` are both accepted and construction
succeeds, producing a filter (with an empty bit vector, respectively with a
zero hash count that vacuously accepts every string), contradicting the
claim that such construction fails. -/
theorem BloomFilter.new_accepts_degenerate :
    BloomFilter.new 0 3 = { bitArray := [], numHashFunctions := 3 } ∧
    BloomFilter.new 5 0 =
      { bitArray := [false, false, false, false, false], numHashFunctions := 0 } ∧
    (BloomFilter.new 5 0).mightContain [120] = true :=
  ⟨rfl, rfl, rfl⟩

/-- Claim C5: `getMemoryUsage` returns `ceil(m / 8)` for a filter whose bit
vector has length `m ≥ 1` (also written as the natural number `(m + 7) / 8`). -/
theorem BloomFilter.getMemoryUsage_eq_ceil (m k : ℕ) (hm : 1 ≤ m) :
    ((BloomFilter.new m k).getMemoryUsage : ℤ) = ⌈(m : ℚ) / 8⌉ ∧
    (BloomFilter.new m k).getMemoryUsage = (m + 7) / 8 := by
  have hlen : (BloomFilter.new m k).bitArray.length = m :=
    List.length_replicate m false
  constructor
  · simp only [BloomFilter.getMemoryUsage, hlen]
    symm
    rw [Int.ceil_eq_iff]
    have hA : 8 * (m / 8 + if m % 8 ≠ 0 then 1 else 0) < m + 8 := by
      by_cases h0 : m % 8 = 0 <;> simp [h0] <;> omega
    have hB : m ≤ 8 * (m / 8 + if m % 8 ≠ 0 then 1 else 0) := by
      by_cases h0 : m % 8 = 0 <;> simp [h0] <;> omega
    have hAq : 8 * ((((m / 8 + if m % 8 ≠ 0 then 1 else 0 : ℕ) : ℤ)) : ℚ) < (m : ℚ) + 8 := by
      exact_mod_cast hA
    have hBq : (m : ℚ) ≤ 8 * ((((m / 8 + if m % 8 ≠ 0 then 1 else 0 : ℕ) : ℤ)) : ℚ) := by
      exact_mod_cast hB
    constructor
    · rw [lt_div_iff (by norm_num : (0 : ℚ) < 8)]
      linarith
    · rw [div_le_iff (by norm_num : (0 : ℚ) < 8)]
      linarith
  · simp only [BloomFilter.getMemoryUsage, hlen]
    by_cases h0 : m % 8 = 0 <;> simp [h0] <;> omega

/-- Witness for C5 at `m = 9`: the filter reports `2` bytes. -/
theorem BloomFilter.getMemoryUsage_eq_ceil_witness :
    (((BloomFilter.new 9 1).getMemoryUsage : ℤ) = ⌈((9 : ℕ) : ℚ) / 8⌉ ∧
      (BloomFilter.new 9 1).getMemoryUsage = (9 + 7) / 8) ∧
    (BloomFilter.new 9 1).getMemoryUsage = 2 :=
  ⟨BloomFilter.getMemoryUsage_eq_ceil 9 1 (by norm_num), rfl⟩

/-- Claim C6: insertion is idempotent: inserting the same string twice in
succession produces exactly the bit-vector state of inserting it once. -/
theorem BloomFilter.insert_idem (f : BloomFilter) (s : Str) :
    (f.insert s).insert s = f.insert s := by
  refine BloomFilter.ext ?_ rfl
  show setBits (f.insert s).bitArray ((f.insert s).positions s) = (f.insert s).bitArray
  rw [BloomFilter.insert_positions]
  exact setBits_idem _ _

/-- Claim C7: monotonic bit-set growth: across any sequence of `insert`
calls, every bit that is `true` stays `true`, and the bit-vector length
(`getBitArraySize`) never changes. -/
theorem BloomFilter.monotone_growth (f : BloomFilter) (xs : List Str) :
    (∀ i : ℕ, f.bitArray[i]? = some true → (f.insertAll xs).bitArray[i]? = some true) ∧
    (f.insertAll xs).getBitArraySize = f.getBitArraySize :=
  ⟨fun _ h => BloomFilter.insertAll_preserves_true xs h,
    BloomFilter.insertAll_length xs f⟩

/-- Witness for C7: a filter whose bit 0 is already set keeps it set across
an insertion, and the length stays `1`. -/
theorem BloomFilter.monotone_growth_witness :
    ((BloomFilter.mk [true] 1).insertAll [[97]]).bitArray[0]? = some true ∧
    ((BloomFilter.mk [true] 1).insertAll [[97]]).getBitArraySize = 1 :=
  ⟨(BloomFilter.monotone_growth (BloomFilter.mk [true] 1) [[97]]).1 0 rfl,
    (BloomFilter.monotone_growth (BloomFilter.mk [true] 1) [[97]]).2⟩

/-- Claim C10: in-bounds access: when the bit vector has length `m ≥ 1`,
`hash` returns a value strictly below `m` for every string and seed, so every
position probed by `insert` and `mightContain` is within bounds. -/
theorem BloomFilter.hash_in_bounds (f : BloomFilter) (item : Str) (seed : ℕ)
    (hm : 1 ≤ f.bitArray.length) :
    f.hash item seed < f.bitArray.length ∧
    ∀ p ∈ f.positions item, p < f.bitArray.length :=
  ⟨Nat.mod_lt _ (by omega), BloomFilter.positions_lt item hm⟩

/-- Witness for C10 at a concrete filter, string and seed. -/
theorem BloomFilter.hash_in_bounds_witness :
    1 ≤ (BloomFilter.new 4 2).bitArray.length ∧
    ((BloomFilter.new 4 2).hash [97] 0 < (BloomFilter.new 4 2).bitArray.length ∧
      ∀ p ∈ (BloomFilter.new 4 2).positions [97],
        p < (BloomFilter.new 4 2).bitArray.length) :=
  ⟨by decide, BloomFilter.hash_in_bounds (BloomFilter.new 4 2) [97] 0 (by decide)⟩

/-! Facts about the capacity planner. -/

theorem log_two_sq_pos : (0 : ℝ) < Real.log 2 * Real.log 2 :=
  mul_pos (Real.log_pos one_lt_two) (Real.log_pos one_lt_two)

theorem optimalM_nonneg (n : ℕ) (p : ℝ) (h0 : 0 < p) (h1 : p < 1) :
    0 ≤ optimalM n p := by
  apply Int.ceil_nonneg
  apply div_nonneg _ log_two_sq_pos.le
  have hlp : Real.log p < 0 := Real.log_neg h0 h1
  have hn : (0 : ℝ) ≤ n := Nat.cast_nonneg n
  nlinarith

theorem optimalParameters_eq (n : ℕ) (p : ℝ) (hn : n ≠ 0) (h0 : 0 < p)
    (h1 : p < 1) :
    BloomFilter.optimalParameters n p =
      some ((optimalM n p).toNat, (optimalK n p).toNat) := by
  have hcond : ¬ (n = 0 ∨ p ≤ 0 ∨ optimalM n p < 0) := by
    push_neg
    exact ⟨hn, h0, optimalM_nonneg n p h0 h1⟩
  simp only [BloomFilter.optimalParameters, if_neg hcond]

theorem optimalM_mono_n (n₁ n₂ : ℕ) (p : ℝ) (h12 : n₁ ≤ n₂) (h0 : 0 < p)
    (h1 : p < 1) : optimalM n₁ p ≤ optimalM n₂ p := by
  apply Int.ceil_le_ceil
  refine div_le_div_of_nonneg_right ?_ log_two_sq_pos.le
  have hlp : Real.log p ≤ 0 := (Real.log_neg h0 h1).le
  have hc : (n₁ : ℝ) ≤ (n₂ : ℝ) := Nat.cast_le.mpr h12
  have := mul_le_mul_of_nonpos_right hc hlp
  linarith

theorem optimalM_anti_p (n : ℕ) (p q : ℝ) (hq0 : 0 < q) (hqp : q ≤ p) :
    optimalM n p ≤ optimalM n q := by
  apply Int.ceil_le_ceil
  refine div_le_div_of_nonneg_right ?_ log_two_sq_pos.le
  have hl : Real.log q ≤ Real.log p :=
    (Real.log_le_log_iff hq0 (lt_of_lt_of_le hq0 hqp)).mpr hqp
  have hc : (0 : ℝ) ≤ n := Nat.cast_nonneg n
  have := mul_le_mul_of_nonneg_left hl hc
  linarith

theorem ceilM_100 :
    ⌈-(((100 : ℕ) : ℝ) * Real.log (99 / 100)) / (Real.log 2 * Real.log 2)⌉ = (3 : ℤ) := by
  have hlo := Real.log_two_gt_d9
  have hhi := Real.log_two_lt_d9
  have hl2 : (0 : ℝ) < Real.log 2 := by linarith
  have hup : Real.log ((99 : ℝ) / 100) ≤ -(1 / 100) := by
    have := Real.log_le_sub_one_of_pos (show (0 : ℝ) < 99 / 100 by norm_num)
    linarith
  have hdn : -(1 / 99 : ℝ) ≤ Real.log ((99 : ℝ) / 100) := by
    have h1 : Real.log ((100 : ℝ) / 99) ≤ 100 / 99 - 1 :=
      Real.log_le_sub_one_of_pos (by norm_num)
    have h2 : Real.log ((99 : ℝ) / 100) = -Real.log ((100 : ℝ) / 99) := by
      rw [show ((99 : ℝ) / 100) = ((100 : ℝ) / 99)⁻¹ by norm_num, Real.log_inv]
    rw [h2]
    linarith
  have hcc := log_two_sq_pos
  rw [Int.ceil_eq_iff]
  constructor
  · rw [lt_div_iff hcc]
    have hsq : Real.log 2 * Real.log 2 < 0.6931471808 * 0.6931471808 := by nlinarith
    push_cast
    nlinarith
  · rw [div_le_iff hcc]
    have hsq2 : (0.6931471803 : ℝ) * 0.6931471803 < Real.log 2 * Real.log 2 := by
      nlinarith
    push_cast
    nlinarith

theorem optimalM_100 : optimalM 100 (99 / 100 : ℝ) = 3 := ceilM_100

theorem optimalK_100 : optimalK 100 (99 / 100 : ℝ) = 0 := by
  unfold optimalK
  rw [optimalM_100]
  have h1 : ((3 : ℤ).toNat / 100 : ℕ) = 0 := rfl
  rw [h1]
  norm_num

theorem optimalParameters_100_99 :
    BloomFilter.optimalParameters 100 (99 / 100 : ℝ) = some (3, 0) := by
  rw [optimalParameters_eq 100 (99 / 100) (by norm_num) (by norm_num) (by norm_num),
    optimalM_100, optimalK_100]
  rfl

theorem optimalParametersSpec_100_99 :
    optimalParametersSpec 100 (99 / 100 : ℝ) = (3, 1) := by
  unfold optimalParametersSpec
  rw [ceilM_100]
  have hk : ⌈(((3 : ℤ) : ℝ) / ((100 : ℕ) : ℝ)) * Real.log 2⌉ = 1 := by
    rw [Int.ceil_eq_iff]
    have hl2 : (0 : ℝ) < Real.log 2 := Real.log_pos one_lt_two
    have hhi := Real.log_two_lt_d9
    constructor
    · push_cast
      nlinarith
    · push_cast
      nlinarith
  rw [hk]

/-- Claim C2 (refuted, code bug): at `n = 100`, `p = 0.99` the specification's
formulas give `m = 3` and `k = ceil((3/100) * ln 2) = 1`, but the code returns
`k = 0`, because `m / expectedElements` in `src/main.cpp:96` is unsigned
integer division (contradicting the code's own comment
`k = (m/n) * ln(2)` on the line above). -/
theorem BloomFilter.optimalParameters_truncates_ratio :
    BloomFilter.optimalParameters 100 (99 / 100 : ℝ) = some (3, 0) ∧
    optimalParametersSpec 100 (99 / 100 : ℝ) = (3, 1) :=
  ⟨optimalParameters_100_99, optimalParametersSpec_100_99⟩

/-- Claim C3 (refuted, code bug): `optimalParameters` performs no input
validation.  At `n = 100`, `p = 1.0` it silently returns the degenerate pair
`(0, 0)` instead of failing with an invalid-argument condition; at `n = 0` and
at `p = 0.0` the C++ computation is undefined (`none` in the model: division
by zero, respectively a `size_t` conversion of an infinite value), again not a
reported invalid-argument failure. -/
theorem BloomFilter.optimalParameters_no_validation :
    BloomFilter.optimalParameters 100 (1 : ℝ) = some (0, 0) ∧
    BloomFilter.optimalParameters 0 (1 / 100 : ℝ) = none ∧
    BloomFilter.optimalParameters 100 (0 : ℝ) = none := by
  have hm0 : optimalM 100 (1 : ℝ) = 0 := by
    unfold optimalM
    simp [Real.log_one]
  have hk0 : optimalK 100 (1 : ℝ) = 0 := by
    unfold optimalK
    rw [hm0]
    norm_num
  refine ⟨?_, ?_, ?_⟩
  · have hcond : ¬ ((100 : ℕ) = 0 ∨ (1 : ℝ) ≤ 0 ∨ optimalM 100 (1 : ℝ) < 0) := by
      push_neg
      exact ⟨by norm_num, by norm_num, le_of_eq hm0.symm⟩
    simp only [BloomFilter.optimalParameters]
    rw [if_neg hcond, hm0, hk0]
    rfl
  · simp [BloomFilter.optimalParameters]
  · simp [BloomFilter.optimalParameters]

/-- Claim C8: sizing monotonicity.  In the valid region the planner returns
the pair built from `optimalM`, and the `m` component is non-decreasing in
`n` for fixed `p` and non-decreasing as `p` decreases (from `p` down to `q`)
for fixed `n`. -/
theorem BloomFilter.sizing_monotonic (n₁ n₂ : ℕ) (p q : ℝ) (hn : 1 ≤ n₁)
    (h12 : n₁ ≤ n₂) (hq0 : 0 < q) (hqp : q ≤ p) (hp1 : p < 1) :
    BloomFilter.optimalParameters n₁ p =
      some ((optimalM n₁ p).toNat, (optimalK n₁ p).toNat) ∧
    (optimalM n₁ p).toNat ≤ (optimalM n₂ p).toNat ∧
    (optimalM n₁ p).toNat ≤ (optimalM n₁ q).toNat := by
  have hp0 : 0 < p := lt_of_lt_of_le hq0 hqp
  refine ⟨optimalParameters_eq n₁ p (by omega) hp0 hp1, ?_, ?_⟩
  · exact Int.toNat_le_toNat (optimalM_mono_n n₁ n₂ p h12 hp0 hp1)
  · exact Int.toNat_le_toNat (optimalM_anti_p n₁ p q hq0 hqp)

/-- Witness for C8 at `n₁ = 1`, `n₂ = 2`, `p = 1/2`, `q = 1/4`. -/
theorem BloomFilter.sizing_monotonic_witness :
    BloomFilter.optimalParameters 1 (1 / 2 : ℝ) =
      some ((optimalM 1 (1 / 2 : ℝ)).toNat, (optimalK 1 (1 / 2 : ℝ)).toNat) ∧
    (optimalM 1 (1 / 2 : ℝ)).toNat ≤ (optimalM 2 (1 / 2 : ℝ)).toNat ∧
    (optimalM 1 (1 / 2 : ℝ)).toNat ≤ (optimalM 1 (1 / 4 : ℝ)).toNat :=
  BloomFilter.sizing_monotonic 1 2 (1 / 2) (1 / 4) (by norm_num) (by norm_num)
    (by norm_num) (by norm_num) (by norm_num)

/-- Claim C9: there is a valid planner input (`n = 100`, `p = 0.99`) on which
the computed `m` is smaller than `n`, the unsigned integer quotient `m / n`
is `0`, and `optimalParameters` returns `k = 0`, violating the `k ≥ 1`
requirement of the filter constructor. -/
theorem BloomFilter.optimalParameters_k_zero :
    ∃ n : ℕ, ∃ p : ℝ, 1 ≤ n ∧ 0 < p ∧ p < 1 ∧
      ∃ m : ℕ, BloomFilter.optimalParameters n p = some (m, 0) ∧ m < n :=
  ⟨100, 99 / 100, by norm_num, by norm_num, by norm_num, 3,
    optimalParameters_100_99, by norm_num⟩
